import Mathlib

/-!
Shallow embedding of the BCS serializer (`src/ser/serializer.rs`,
`src/ser/flavors.rs`, `src/ser/mod.rs`, `src/error.rs`).

Bytes are modelled as `Nat` (kept below 256 by construction), byte buffers as
`List Nat`, fallible operations as `Except Error`.  The serde `Serialize`
driver is modelled by a `Value` tree: one constructor per `serialize_*`
entry point of the `Serializer`.
-/

namespace BCS

/-- Error taxonomy, from `src/error.rs` (`enum Error`). -/
inductive Error where
  | Eof
  | Io (msg : String)
  | ExceededMaxLen (n : Nat)
  | ExceededContainerDepthLimit (name : String)
  | ExpectedBoolean
  | ExpectedMapKey
  | ExpectedMapValue
  | NonCanonicalMap
  | ExpectedOption
  | SerdeCustom
  | MissingLen
  | NotSupported (reason : String)
  | RemainingInput
  | Utf8
  | NonCanonicalUleb128Encoding
  | IntegerOverflowDuringUleb128Decoding
  | CollectStrError
deriving DecidableEq, Repr

/-- Modelled from the spec: `MAX_CONTAINER_DEPTH` is declared in the crate
root (`lib.rs`), which is not among the provided sources; the spec fixes the
default container depth limit to 500. -/
def MAX_CONTAINER_DEPTH : Nat := 500

/-- Modelled from the spec: `MAX_SEQUENCE_LENGTH` is declared in the crate
root (`lib.rs`), which is not among the provided sources; the spec says the
ceiling is at most 2^32 - 1 and that implementations SHOULD use 2^31 - 1. -/
def MAX_SEQUENCE_LENGTH : Nat := 2 ^ 31 - 1

/-- Little-endian byte representation (`to_le_bytes`) of `v` on `n` bytes,
as used by `serialize_u16` / `serialize_u32` / `serialize_u64` /
`serialize_u128`. -/
def leBytes : Nat → Nat → List Nat
  | 0, _ => []
  | n + 1, v => v % 256 :: leBytes n (v / 256)

/-- `Serializer::output_u32_as_uleb128`: while `value >= 0x80`, emit the low
7 bits with the continuation bit (0x80) set and shift right by 7; finally
emit the remaining bits with the high bit clear. -/
def output_u32_as_uleb128 (value : Nat) : List Nat :=
  if value ≥ 0x80 then
    (value % 0x80 + 0x80) :: output_u32_as_uleb128 (value / 0x80)
  else
    [value]
termination_by value
decreasing_by
  omega

/-- `Serializer::output_seq_len`: reject lengths above `MAX_SEQUENCE_LENGTH`
with `ExceededMaxLen`, otherwise emit the length `as u32` in ULEB128 form. -/
def output_seq_len (len : Nat) : Except Error (List Nat) :=
  if len > MAX_SEQUENCE_LENGTH then
    .error (.ExceededMaxLen len)
  else
    .ok (output_u32_as_uleb128 (len % 2 ^ 32))

/-- `Serializer::output_variant_index`: the `u32` variant index is emitted in
ULEB128 form, with no length check. -/
def output_variant_index (v : Nat) : List Nat :=
  output_u32_as_uleb128 (v % 2 ^ 32)

/-- `Serializer::enter_named_container`: at remaining depth 0 fail with
`ExceededContainerDepthLimit(name)`; otherwise decrement the remaining
depth. -/
def enter_named_container (name : String) (max_remaining_depth : Nat) :
    Except Error Nat :=
  if max_remaining_depth = 0 then
    .error (.ExceededContainerDepthLimit name)
  else
    .ok (max_remaining_depth - 1)

/-- Unsigned byte-lexicographic comparison of byte buffers: the embedding of
`Vec<u8>::cmp` (`e1.0.cmp(&e2.0)`) as a "less or equal" test. -/
def bytesLe : List Nat → List Nat → Bool
  | [], _ => true
  | _ :: _, [] => false
  | a :: as, b :: bs => if a < b then true else if b < a then false else bytesLe as bs

/-- A staged map entry: encoded key and encoded value. -/
abbrev Entry := List Nat × List Nat

/-- The comparator `MapSerializer::end` sorts by: `e1.0.cmp(&e2.0)`, i.e.
unsigned byte-lexicographic order of the encoded keys. -/
def keyLe (e1 e2 : Entry) : Prop := bytesLe e1.1 e2.1 = true

instance : DecidableRel keyLe := fun e1 e2 => by
  unfold keyLe; infer_instance

/-- `Vec::dedup_by(|e1, e2| e1.0.eq(&e2.0))`: remove each element whose
encoded key equals the encoded key of the retained element just before it
(so the first element of every run of equal keys survives). -/
def dedupByKey : List Entry → List Entry
  | [] => []
  | [e] => [e]
  | e1 :: e2 :: rest =>
    if e2.1 = e1.1 then dedupByKey (e1 :: rest)
    else e1 :: dedupByKey (e2 :: rest)

/-- The canonicalization performed by `MapSerializer::end`: stable sort by
encoded key (Rust's `sort_by` is stable; embedded as insertion sort), then
dedup by encoded-key equality. -/
def canonEntries (entries : List Entry) : List Entry :=
  dedupByKey (List.insertionSort keyLe entries)

/-- State of `MapSerializer` (`serializer.rs`, `mod map_ser`): the staged
`(encoded_key, encoded_value)` pairs and the pending encoded key. -/
structure MapState where
  entries : List Entry
  next_key : Option (List Nat)
deriving DecidableEq, Repr

/-- `MapSerializer::serialize_key`: fail with `ExpectedMapValue` if a key is
already pending; otherwise encode the key into a fresh buffer (the `encKey`
argument is that sub-serialization's result) and store it as pending. -/
def mapSerializeKey (st : MapState) (encKey : Except Error (List Nat)) :
    Except Error MapState :=
  if st.next_key.isSome then
    .error .ExpectedMapValue
  else do
    let k ← encKey
    .ok { st with next_key := some k }

/-- `MapSerializer::serialize_value`: fail with `ExpectedMapKey` if no key is
pending; otherwise encode the value into a fresh buffer and stage the
`(encoded_key, encoded_value)` pair. -/
def mapSerializeValue (st : MapState) (encVal : Except Error (List Nat)) :
    Except Error MapState :=
  match st.next_key with
  | some k => do
    let v ← encVal
    .ok { entries := st.entries ++ [(k, v)], next_key := none }
  | none => .error .ExpectedMapKey

/-- Sink abstraction, from `src/ser/flavors.rs` (`trait Flavor`): a write
target supporting `extend`. -/
structure Flavor (σ : Type) where
  extend : σ → List Nat → σ

/-- The `Vec<u8>` flavor: `extend` appends. -/
def bufFlavor : Flavor (List Nat) := ⟨fun s bs => s ++ bs⟩

/-- The `Size` flavor: `extend` adds the chunk length to the counter. -/
def sizeFlavor : Flavor Nat := ⟨fun s bs => s + bs.length⟩

/-- `MapSerializer::end`, generic over the flavor: fail with
`ExpectedMapValue` if a key is pending; otherwise sort the staged entries by
encoded key, dedup by encoded-key equality, emit `output_seq_len(count)` and
each `encoded_key ++ encoded_value` in order. -/
def mapEndF {σ : Type} (fl : Flavor σ) (st : MapState) (s : σ) :
    Except Error σ :=
  if st.next_key.isSome then
    .error .ExpectedMapValue
  else
    let canon := canonEntries st.entries
    if canon.length > MAX_SEQUENCE_LENGTH then
      .error (.ExceededMaxLen canon.length)
    else
      .ok (canon.foldl (fun acc e => fl.extend (fl.extend acc e.1) e.2)
        (fl.extend s (output_u32_as_uleb128 (canon.length % 2 ^ 32))))

/-- `MapSerializer::end` writing into a fresh byte buffer. -/
def mapEnd (st : MapState) : Except Error (List Nat) :=
  mapEndF bufFlavor st []

/-- The logical value tree driven through the serializer by the serde
adapter: one constructor per `serialize_*` entry point of `Serializer`
(unsupported shapes such as floats and chars are omitted; signed integers
are bit-reinterpretations of the unsigned ones and are not separately
modelled). For `vseq` the `Option Nat` is the length announced by the
adapter (`serialize_seq(len)`). -/
inductive Value where
  | vbool (b : Bool)
  | vu8 (v : Nat)
  | vu16 (v : Nat)
  | vu32 (v : Nat)
  | vu64 (v : Nat)
  | vu128 (v : Nat)
  | vbytes (bs : List Nat)
  | vnone
  | vsome (v : Value)
  | vunit
  | vunitStruct (name : String)
  | vunitVariant (name : String) (idx : Nat)
  | vnewtypeStruct (name : String) (v : Value)
  | vnewtypeVariant (name : String) (idx : Nat) (v : Value)
  | vseq (len : Option Nat) (elems : List Value)
  | vtuple (elems : List Value)
  | vtupleStruct (name : String) (elems : List Value)
  | vtupleVariant (name : String) (idx : Nat) (elems : List Value)
  | vmap (pairs : List (Value × Value))
  | vstruct (name : String) (fields : List Value)
  | vstructVariant (name : String) (idx : Nat) (fields : List Value)

mutual

/-- The serializer dispatch of `impl ser::Serializer for Serializer`,
instantiated at the `Vec<u8>` flavor and returning the bytes it appends
(sub-serializers for map keys and values always run on this flavor, on
fresh buffers). `d` is `max_remaining_depth`. -/
def serializeValue : Value → Nat → Except Error (List Nat)
  | .vbool b, _ => .ok [if b then 1 else 0]
  | .vu8 v, _ => .ok [v % 256]
  | .vu16 v, _ => .ok (leBytes 2 v)
  | .vu32 v, _ => .ok (leBytes 4 v)
  | .vu64 v, _ => .ok (leBytes 8 v)
  | .vu128 v, _ => .ok (leBytes 16 v)
  | .vbytes bs, _ => do
    let pre ← output_seq_len bs.length
    .ok (pre ++ bs.map (· % 256))
  | .vnone, _ => .ok [0]
  | .vsome v, d => do
    let b ← serializeValue v d
    .ok (1 :: b)
  | .vunit, _ => .ok []
  | .vunitStruct name, d => do
    let _ ← enter_named_container name d
    .ok []
  | .vunitVariant name idx, d => do
    let _ ← enter_named_container name d
    .ok (output_variant_index idx)
  | .vnewtypeStruct name v, d => do
    let d' ← enter_named_container name d
    serializeValue v d'
  | .vnewtypeVariant name idx v, d => do
    let d' ← enter_named_container name d
    let b ← serializeValue v d'
    .ok (output_variant_index idx ++ b)
  | .vseq none _, _ => .error .MissingLen
  | .vseq (some len) elems, d => do
    let pre ← output_seq_len len
    let b ← serializeElems elems d
    .ok (pre ++ b)
  | .vtuple elems, d => serializeElems elems d
  | .vtupleStruct name elems, d => do
    let d' ← enter_named_container name d
    serializeElems elems d'
  | .vtupleVariant name idx elems, d => do
    let d' ← enter_named_container name d
    let b ← serializeElems elems d'
    .ok (output_variant_index idx ++ b)
  | .vmap pairs, d => do
    let st ← serializeEntries pairs d ⟨[], none⟩
    mapEnd st
  | .vstruct name fields, d => do
    let d' ← enter_named_container name d
    serializeElems fields d'
  | .vstructVariant name idx fields, d => do
    let d' ← enter_named_container name d
    let b ← serializeElems fields d'
    .ok (output_variant_index idx ++ b)

/-- Elements of a sequence / tuple / tuple struct / tuple variant / struct /
struct variant: each element is serialized by a fresh
`Serializer::new(self.output, self.max_remaining_depth)`, i.e. at the
enclosing serializer's remaining depth, appending to the same output. -/
def serializeElems : List Value → Nat → Except Error (List Nat)
  | [], _ => .ok []
  | v :: vs, d => do
    let b ← serializeValue v d
    let r ← serializeElems vs d
    .ok (b ++ r)

/-- Alternated `serialize_key` / `serialize_value` calls made by the adapter
for the delivered `(key, value)` pairs; both sub-serializers run on fresh
buffers at the enclosing map serializer's `max_remaining_depth`. -/
def serializeEntries : List (Value × Value) → Nat → MapState →
    Except Error MapState
  | [], _, st => .ok st
  | (k, v) :: rest, d, st => do
    let st1 ← mapSerializeKey st (serializeValue k d)
    let st2 ← mapSerializeValue st1 (serializeValue v d)
    serializeEntries rest d st2

end

mutual

/-- The serializer dispatch of `impl ser::Serializer for Serializer`,
generic over the flavor `F`, threading the sink state `s` through each
`self.output.extend(...)` call.  Map key/value staging always runs on fresh
`Vec<u8>` buffers (`serializeEntries`), whatever the outer flavor is. -/
def serializeValueF {σ : Type} (fl : Flavor σ) : Value → Nat → σ →
    Except Error σ
  | .vbool b, _, s => .ok (fl.extend s [if b then 1 else 0])
  | .vu8 v, _, s => .ok (fl.extend s [v % 256])
  | .vu16 v, _, s => .ok (fl.extend s (leBytes 2 v))
  | .vu32 v, _, s => .ok (fl.extend s (leBytes 4 v))
  | .vu64 v, _, s => .ok (fl.extend s (leBytes 8 v))
  | .vu128 v, _, s => .ok (fl.extend s (leBytes 16 v))
  | .vbytes bs, _, s => do
    let pre ← output_seq_len bs.length
    .ok (fl.extend (fl.extend s pre) (bs.map (· % 256)))
  | .vnone, _, s => .ok (fl.extend s [0])
  | .vsome v, d, s => serializeValueF fl v d (fl.extend s [1])
  | .vunit, _, s => .ok s
  | .vunitStruct name, d, s => do
    let _ ← enter_named_container name d
    .ok s
  | .vunitVariant name idx, d, s => do
    let _ ← enter_named_container name d
    .ok (fl.extend s (output_variant_index idx))
  | .vnewtypeStruct name v, d, s => do
    let d' ← enter_named_container name d
    serializeValueF fl v d' s
  | .vnewtypeVariant name idx v, d, s => do
    let d' ← enter_named_container name d
    serializeValueF fl v d' (fl.extend s (output_variant_index idx))
  | .vseq none _, _, _ => .error .MissingLen
  | .vseq (some len) elems, d, s => do
    let pre ← output_seq_len len
    serializeElemsF fl elems d (fl.extend s pre)
  | .vtuple elems, d, s => serializeElemsF fl elems d s
  | .vtupleStruct name elems, d, s => do
    let d' ← enter_named_container name d
    serializeElemsF fl elems d' s
  | .vtupleVariant name idx elems, d, s => do
    let d' ← enter_named_container name d
    serializeElemsF fl elems d' (fl.extend s (output_variant_index idx))
  | .vmap pairs, d, s => do
    let st ← serializeEntries pairs d ⟨[], none⟩
    mapEndF fl st s
  | .vstruct name fields, d, s => do
    let d' ← enter_named_container name d
    serializeElemsF fl fields d' s
  | .vstructVariant name idx fields, d, s => do
    let d' ← enter_named_container name d
    serializeElemsF fl fields d' (fl.extend s (output_variant_index idx))

/-- Elements of the anonymous and named compound shapes, generic flavor:
each element is serialized by a fresh serializer at the enclosing
serializer's remaining depth, into the same sink. -/
def serializeElemsF {σ : Type} (fl : Flavor σ) : List Value → Nat → σ →
    Except Error σ
  | [], _, s => .ok s
  | v :: vs, d, s => do
    let s' ← serializeValueF fl v d s
    serializeElemsF fl vs d s'

end

/-- `serialize_with_flavor` (`src/ser/mod.rs`): run the serializer at
`MAX_CONTAINER_DEPTH` on the given storage and finalize. -/
def serialize_with_flavor {σ : Type} (fl : Flavor σ) (value : Value)
    (storage : σ) : Except Error σ :=
  serializeValueF fl value MAX_CONTAINER_DEPTH storage

/-- `to_bytes` (`src/ser/mod.rs`): serialize into a fresh `Vec<u8>`. -/
def to_bytes (value : Value) : Except Error (List Nat) :=
  serialize_with_flavor bufFlavor value []

/-- `serialized_size` (`src/ser/mod.rs`): serialize into the counting
flavor. -/
def serialized_size (value : Value) : Except Error Nat :=
  serialize_with_flavor sizeFlavor value 0

/-- Encoding of one delivered `(key, value)` map pair into its staged
`(encoded_key, encoded_value)` form (the composite effect of one
`serialize_key` / `serialize_value` round trip on fresh buffers). -/
def encPair (d : Nat) (p : Value × Value) : Except Error Entry := do
  let k ← serializeValue p.1 d
  let v ← serializeValue p.2 d
  .ok (k, v)

/-- A chain of `n` nested one-field named structs, ending in a unit value:
the nesting scenario of the spec's depth-limit tests. -/
def nestedStruct : Nat → Value
  | 0 => .vunit
  | n + 1 => .vstruct ("S") [nestedStruct n]

/-- Reassembly of the 7-bit groups of a ULEB128 byte string,
least-significant group first: the reference reading of the encoding. -/
def ulebDecode (bs : List Nat) : Nat :=
  bs.foldr (fun b acc => b % 128 + 128 * acc) 0

/-- Strict unsigned byte-lexicographic order on staged entries: below in the
`keyLe` order and with distinct encoded keys. -/
def keyLt (e1 e2 : Entry) : Prop := keyLe e1 e2 ∧ e1.1 ≠ e2.1

@[simp] theorem except_bind_ok {α β : Type} (a : α) (f : α → Except Error β) :
    (Except.ok a : Except Error α) >>= f = f a := rfl

@[simp] theorem except_bind_error {α β : Type} (e : Error)
    (f : α → Except Error β) :
    (Except.error e : Except Error α) >>= f = .error e := rfl

@[simp] theorem except_map_ok {α β : Type} (a : α) (f : α → β) :
    (Except.ok a : Except Error α).map f = .ok (f a) := rfl

@[simp] theorem except_map_error {α β : Type} (e : Error) (f : α → β) :
    (Except.error e : Except Error α).map f = .error e := rfl

@[simp] theorem except_bind_ok' {α β : Type} (a : α) (f : α → Except Error β) :
    (Except.ok a : Except Error α).bind f = f a := rfl

@[simp] theorem except_bind_error' {α β : Type} (e : Error)
    (f : α → Except Error β) :
    (Except.error e : Except Error α).bind f = .error e := rfl

theorem bytesLe_refl : ∀ a, bytesLe a a = true
  | [] => rfl
  | x :: xs => by
    have := bytesLe_refl xs
    simp [bytesLe, this]

theorem bytesLe_total : ∀ a b, bytesLe a b = true ∨ bytesLe b a = true
  | [], _ => .inl rfl
  | _ :: _, [] => .inr rfl
  | a :: as, b :: bs => by
    rcases Nat.lt_trichotomy a b with h | h | h
    · left; simp [bytesLe, h]
    · subst h
      rcases bytesLe_total as bs with h' | h'
      · left; simp [bytesLe, h']
      · right; simp [bytesLe, h']
    · right; simp [bytesLe, h]

theorem bytesLe_trans : ∀ a b c, bytesLe a b = true → bytesLe b c = true →
    bytesLe a c = true
  | [], _, _, _, _ => rfl
  | _ :: _, [], _, hab, _ => by simp [bytesLe] at hab
  | _ :: _, _ :: _, [], _, hbc => by simp [bytesLe] at hbc
  | a :: as, b :: bs, c :: cs, hab, hbc => by
    simp only [bytesLe] at hab hbc ⊢
    rcases Nat.lt_trichotomy a b with h1 | h1 | h1 <;>
      rcases Nat.lt_trichotomy b c with h2 | h2 | h2 <;>
      simp_all [Nat.lt_asymm, Nat.lt_irrefl] <;>
      first
        | exact absurd (Nat.lt_trans h1 h2) (by omega)
        | (have : a < c := Nat.lt_trans h1 h2; simp [this])
        | omega
        | exact bytesLe_trans as bs cs hab hbc

theorem bytesLe_antisymm : ∀ a b, bytesLe a b = true → bytesLe b a = true →
    a = b
  | [], [], _, _ => rfl
  | [], _ :: _, _, hba => by simp [bytesLe] at hba
  | _ :: _, [], hab, _ => by simp [bytesLe] at hab
  | a :: as, b :: bs, hab, hba => by
    simp only [bytesLe] at hab hba
    rcases Nat.lt_trichotomy a b with h | h | h
    · simp [h, Nat.lt_asymm h] at hba
    · subst h
      simp only [Nat.lt_irrefl, if_false] at hab hba
      rw [bytesLe_antisymm as bs hab hba]
    · simp [h, Nat.lt_asymm h] at hab

instance : IsTotal Entry keyLe := ⟨fun a b => bytesLe_total a.1 b.1⟩

instance : IsTrans Entry keyLe := ⟨fun a b c => bytesLe_trans a.1 b.1 c.1⟩

instance : IsRefl Entry keyLe := ⟨fun a => bytesLe_refl a.1⟩

instance : IsAntisymm Entry keyLt :=
  ⟨fun a b h1 h2 => absurd (bytesLe_antisymm a.1 b.1 h1.1 h2.1) h1.2⟩

theorem keyLt_of_keyLe_of_ne {a b : Entry} (h : keyLe a b) (hne : a.1 ≠ b.1) :
    keyLt a b := ⟨h, hne⟩

theorem uleb_spec (v : Nat) :
    output_u32_as_uleb128 v ≠ [] ∧
    ulebDecode (output_u32_as_uleb128 v) = v ∧
    (∀ b, (output_u32_as_uleb128 v).getLast? = some b →
      b < 128 ∧ (b = 0 → v = 0)) ∧
    (∀ b ∈ (output_u32_as_uleb128 v).dropLast, 128 ≤ b ∧ b < 256) := by
  induction v using Nat.strong_induction_on with
  | _ v ih =>
    rw [output_u32_as_uleb128]
    by_cases h : v ≥ 0x80
    · simp only [h, if_true]
      obtain ⟨ihne, ihdec, ihlast, ihhigh⟩ := ih (v / 0x80) (by omega)
      obtain ⟨t0, ts, ht⟩ := List.exists_cons_of_ne_nil ihne
      refine ⟨by simp, ?_, ?_, ?_⟩
      · simp only [ulebDecode, List.foldr_cons] at ihdec ⊢
        rw [ihdec]
        omega
      · intro b hb
        rw [ht, List.getLast?_cons_cons] at hb
        rw [ht] at ihlast
        obtain ⟨hlt, hz⟩ := ihlast b hb
        exact ⟨hlt, fun h0 => absurd (hz h0) (by omega)⟩
      · intro b hb
        rw [ht, List.dropLast_cons₂] at hb
        rcases List.mem_cons.mp hb with hb' | hb'
        · omega
        · exact ihhigh b (by rw [ht]; exact hb')
    · simp only [h, if_false]
      refine ⟨by simp, ?_, ?_, by simp⟩
      · simp [ulebDecode]; omega
      · intro b hb
        simp only [List.getLast?_singleton, Option.some.injEq] at hb
        subst hb
        exact ⟨by omega, fun h0 => h0⟩

theorem dedupByKey_sublist : ∀ l : List Entry, List.Sublist (dedupByKey l) l := by
  intro l
  induction l using dedupByKey.induct with
  | case1 => simp [dedupByKey]
  | case2 e => simp [dedupByKey]
  | case3 e1 e2 rest heq ih =>
    rw [dedupByKey, if_pos heq]
    exact ih.trans (List.cons_sublist_cons.mpr (List.sublist_cons_self e2 rest))
  | case4 e1 e2 rest heq ih =>
    rw [dedupByKey, if_neg heq]
    exact List.cons_sublist_cons.mpr ih

theorem dedupByKey_pairwise_ne :
    ∀ l : List Entry, l.Pairwise keyLe →
      (dedupByKey l).Pairwise (fun a b => a.1 ≠ b.1) := by
  intro l
  induction l using dedupByKey.induct with
  | case1 => intro _; simp [dedupByKey]
  | case2 e => intro _; simp [dedupByKey]
  | case3 e1 e2 rest heq ih =>
    intro hp
    rw [dedupByKey, if_pos heq]
    apply ih
    have h1 : keyLe e1 e2 := (List.pairwise_cons.mp hp).1 e2 (by simp)
    rcases List.pairwise_cons.mp hp with ⟨h1all, hp2⟩
    rcases List.pairwise_cons.mp hp2 with ⟨h2all, hp3⟩
    exact List.pairwise_cons.mpr ⟨fun b hb => h1all b (by simp [hb]), hp3⟩
  | case4 e1 e2 rest heq ih =>
    intro hp
    rw [dedupByKey, if_neg heq]
    rcases List.pairwise_cons.mp hp with ⟨h1all, hp2⟩
    refine List.pairwise_cons.mpr ⟨?_, ih hp2⟩
    intro b hb
    have hbmem : b ∈ e2 :: rest := (dedupByKey_sublist _).mem hb
    rcases List.mem_cons.mp hbmem with hb' | hb'
    · subst hb'
      exact fun hk => heq (hk ▸ rfl)
    · intro hk
      have hle12 : keyLe e1 e2 := h1all e2 (by simp)
      have hle2b : keyLe e2 b :=
        (List.pairwise_cons.mp hp2).1 b hb'
      have : keyLe e2 e1 := by
        unfold keyLe at hle2b ⊢
        rw [hk]
        exact hle2b
      exact heq ((bytesLe_antisymm _ _ this hle12).symm ▸ rfl)

theorem find?_dedupByKey (k : List Nat) :
    ∀ l : List Entry,
      (dedupByKey l).find? (fun e => e.1 == k) = l.find? (fun e => e.1 == k) := by
  intro l
  induction l using dedupByKey.induct with
  | case1 => simp [dedupByKey]
  | case2 e => simp [dedupByKey]
  | case3 e1 e2 rest heq ih =>
    rw [dedupByKey, if_pos heq, ih]
    by_cases h1 : e1.1 = k
    · simp [h1, heq.trans h1]
    · have h2 : ¬ e2.1 = k := fun hc => h1 (heq ▸ hc)
      simp [h1, h2]
  | case4 e1 e2 rest heq ih =>
    rw [dedupByKey, if_neg heq]
    by_cases h1 : e1.1 = k
    · simp [h1]
    · rw [List.find?_cons_of_neg _ (by simp [h1]),
        List.find?_cons_of_neg _ (by simp [h1]), ih]

theorem find?_orderedInsert_of_ne (a : Entry) (k : List Nat) (h : a.1 ≠ k) :
    ∀ l : List Entry,
      (List.orderedInsert keyLe a l).find? (fun e => e.1 == k) =
        l.find? (fun e => e.1 == k) := by
  intro l
  induction l with
  | nil => simp [List.orderedInsert, h]
  | cons b l ih =>
    rw [List.orderedInsert]
    by_cases hle : keyLe a b
    · rw [if_pos hle, List.find?_cons_of_neg _ (by simp [h])]
    · rw [if_neg hle]
      by_cases hb : b.1 = k
      · rw [List.find?_cons_of_pos _ (by simp [hb]),
          List.find?_cons_of_pos _ (by simp [hb])]
      · rw [List.find?_cons_of_neg _ (by simp [hb]),
          List.find?_cons_of_neg _ (by simp [hb]), ih]

theorem find?_orderedInsert_self (a : Entry) :
    ∀ l : List Entry,
      (List.orderedInsert keyLe a l).find? (fun e => e.1 == a.1) = some a := by
  intro l
  induction l with
  | nil => simp [List.orderedInsert]
  | cons b l ih =>
    rw [List.orderedInsert]
    by_cases hle : keyLe a b
    · rw [if_pos hle, List.find?_cons_of_pos _ (by simp)]
    · rw [if_neg hle]
      have hb : b.1 ≠ a.1 := by
        intro hc
        exact hle (show bytesLe a.1 b.1 = true from hc ▸ bytesLe_refl a.1)
      rw [List.find?_cons_of_neg _ (by simp [hb]), ih]

theorem find?_insertionSort (k : List Nat) :
    ∀ l : List Entry,
      (List.insertionSort keyLe l).find? (fun e => e.1 == k) =
        l.find? (fun e => e.1 == k) := by
  intro l
  induction l with
  | nil => rfl
  | cons a l ih =>
    rw [List.insertionSort]
    by_cases ha : a.1 = k
    · subst ha
      rw [find?_orderedInsert_self, List.find?_cons_of_pos _ (by simp)]
    · rw [find?_orderedInsert_of_ne a k ha, ih,
        List.find?_cons_of_neg _ (by simp [ha])]

/-- The canonical entry list is sorted by encoded key, its keys are pairwise
distinct, and the entry retained for a key is the first staged entry with
that key. -/
theorem canonEntries_spec (es : List Entry) :
    List.Sorted keyLe (canonEntries es) ∧
    (canonEntries es).Pairwise (fun a b => a.1 ≠ b.1) ∧
    (∀ k, (canonEntries es).find? (fun e => e.1 == k) =
      es.find? (fun e => e.1 == k)) := by
  have hsorted : List.Sorted keyLe (List.insertionSort keyLe es) :=
    List.sorted_insertionSort keyLe es
  refine ⟨List.Pairwise.sublist (dedupByKey_sublist _) hsorted,
    dedupByKey_pairwise_ne _ hsorted, ?_⟩
  intro k
  rw [canonEntries] at *
  rw [find?_dedupByKey, find?_insertionSort]

theorem canonEntries_eq_of_perm {es1 es2 : List Entry}
    (hperm : es1.Perm es2)
    (hne : es1.Pairwise (fun a b => a.1 ≠ b.1)) :
    canonEntries es1 = canonEntries es2 := by
  have hne2 : es2.Pairwise (fun a b => a.1 ≠ b.1) :=
    (hperm.pairwise_iff (fun h => h.symm)).mp hne
  have hs1 : List.Sorted keyLe (List.insertionSort keyLe es1) :=
    List.sorted_insertionSort keyLe es1
  have hs2 : List.Sorted keyLe (List.insertionSort keyLe es2) :=
    List.sorted_insertionSort keyLe es2
  have hp : (List.insertionSort keyLe es1).Perm (List.insertionSort keyLe es2) :=
    ((List.perm_insertionSort keyLe es1).trans hperm).trans
      (List.perm_insertionSort keyLe es2).symm
  have hne1' : (List.insertionSort keyLe es1).Pairwise (fun a b => a.1 ≠ b.1) :=
    ((List.perm_insertionSort keyLe es1).pairwise_iff (fun h => h.symm)).mpr hne
  have hne2' : (List.insertionSort keyLe es2).Pairwise (fun a b => a.1 ≠ b.1) :=
    ((List.perm_insertionSort keyLe es2).pairwise_iff (fun h => h.symm)).mpr hne2
  have hlt1 : List.Sorted keyLt (List.insertionSort keyLe es1) :=
    (hs1.and hne1').imp (fun h => keyLt_of_keyLe_of_ne h.1 h.2)
  have hlt2 : List.Sorted keyLt (List.insertionSort keyLe es2) :=
    (hs2.and hne2').imp (fun h => keyLt_of_keyLe_of_ne h.1 h.2)
  rw [canonEntries, canonEntries, List.eq_of_perm_of_sorted hp hlt1 hlt2]

theorem serializeEntries_cons (k v : Value) (rest : List (Value × Value))
    (d : Nat) (es : List Entry) :
    serializeEntries ((k, v) :: rest) d ⟨es, none⟩ =
      (encPair d (k, v)).bind fun e =>
        serializeEntries rest d ⟨es ++ [e], none⟩ := by
  rw [serializeEntries]
  rcases hk : serializeValue k d with ek | bk
  · simp [mapSerializeKey, encPair, hk, Except.bind]
  · rcases hv : serializeValue v d with ev | bv
    · simp [mapSerializeKey, mapSerializeValue, encPair, hk, hv, Except.bind]
    · simp [mapSerializeKey, mapSerializeValue, encPair, hk, hv, Except.bind]

theorem serializeEntries_shift :
    ∀ (l : List (Value × Value)) (d : Nat) (es : List Entry),
      serializeEntries l d ⟨es, none⟩ =
        (serializeEntries l d ⟨[], none⟩).map
          fun st => ⟨es ++ st.entries, st.next_key⟩
  | [], d, es => by simp [serializeEntries, Except.map]
  | (k, v) :: rest, d, es => by
    rw [serializeEntries_cons, serializeEntries_cons]
    rcases he : encPair d (k, v) with e | e
    · simp [Except.bind, Except.map]
    · simp only [Except.bind]
      rw [serializeEntries_shift rest d (es ++ [e]),
        serializeEntries_shift rest d ([] ++ [e])]
      rcases hr : serializeEntries rest d ⟨[], none⟩ with r | r
      · simp [Except.map]
      · simp [Except.map]

theorem serializeEntries_cons_ok_iff {k v : Value}
    {rest : List (Value × Value)} {d : Nat} {st : MapState} :
    serializeEntries ((k, v) :: rest) d ⟨[], none⟩ = .ok st ↔
      ∃ e st', encPair d (k, v) = .ok e ∧
        serializeEntries rest d ⟨[], none⟩ = .ok st' ∧
        st = ⟨e :: st'.entries, st'.next_key⟩ := by
  rw [serializeEntries_cons]
  rcases he : encPair d (k, v) with e | e
  · simp [Except.bind]
  · simp only [Except.bind]
    simp only [List.nil_append]
    rw [serializeEntries_shift rest d [e]]
    rcases hr : serializeEntries rest d ⟨[], none⟩ with r | r
    · simp [Except.map]
    · simp only [Except.map, Except.ok.injEq]
      constructor
      · intro h
        exact ⟨e, r, rfl, rfl, h.symm⟩
      · rintro ⟨e', st', he', hr', hst⟩
        cases he'
        cases hr'
        exact hst.symm

theorem serializeEntries_perm {l1 l2 : List (Value × Value)}
    (hperm : l1.Perm l2) (d : Nat) :
    ∀ st1, serializeEntries l1 d ⟨[], none⟩ = .ok st1 →
      ∃ st2, serializeEntries l2 d ⟨[], none⟩ = .ok st2 ∧
        st1.entries.Perm st2.entries := by
  induction hperm with
  | nil =>
    intro st1 h
    exact ⟨st1, h, List.Perm.refl _⟩
  | cons x p ih =>
    intro st1 h
    obtain ⟨kx, vx⟩ := x
    obtain ⟨e, st1', he, hr, hst⟩ := serializeEntries_cons_ok_iff.mp h
    obtain ⟨st2', hr2, hp2⟩ := ih st1' hr
    refine ⟨⟨e :: st2'.entries, st2'.next_key⟩,
      serializeEntries_cons_ok_iff.mpr ⟨e, st2', he, hr2, rfl⟩, ?_⟩
    rw [hst]
    exact hp2.cons e
  | swap x y l =>
    intro st1 h
    obtain ⟨kx, vx⟩ := y
    obtain ⟨ky, vy⟩ := x
    obtain ⟨ey, st1a, hey, hra, hsta⟩ := serializeEntries_cons_ok_iff.mp h
    obtain ⟨ex, st1', hex, hr, hst⟩ := serializeEntries_cons_ok_iff.mp hra
    refine ⟨⟨ex :: ey :: st1'.entries, st1'.next_key⟩,
      serializeEntries_cons_ok_iff.mpr
        ⟨ex, ⟨ey :: st1'.entries, st1'.next_key⟩, hex,
          serializeEntries_cons_ok_iff.mpr ⟨ey, st1', hey, hr, rfl⟩, rfl⟩, ?_⟩
    rw [hsta, hst]
    exact List.Perm.swap ex ey st1'.entries
  | trans p1 p2 ih1 ih2 =>
    intro st1 h
    obtain ⟨stm, hm, hpm⟩ := ih1 st1 h
    obtain ⟨st2, h2, hp2⟩ := ih2 stm hm
    exact ⟨st2, h2, hpm.trans hp2⟩

theorem serializeEntries_next_key :
    ∀ (l : List (Value × Value)) (d : Nat) (es : List Entry) (st : MapState),
      serializeEntries l d ⟨es, none⟩ = .ok st → st.next_key = none
  | [], d, es, st, h => by
    rw [serializeEntries] at h
    cases h
    rfl
  | (k, v) :: rest, d, es, st, h => by
    rw [serializeEntries_cons] at h
    rcases he : encPair d (k, v) with e | e <;> rw [he] at h
    · simp [Except.bind] at h
    · simp only [Except.bind] at h
      exact serializeEntries_next_key rest d (es ++ [e]) st h

theorem foldl_extend_append :
    ∀ (l : List Entry) (s : List Nat),
      l.foldl (fun acc e => bufFlavor.extend (bufFlavor.extend acc e.1) e.2) s =
        s ++ (l.map fun e => e.1 ++ e.2).flatten
  | [], s => by simp
  | e :: l, s => by
    rw [List.foldl_cons, foldl_extend_append l]
    simp [bufFlavor]

theorem mapEnd_ok (es : List Entry)
    (h : (canonEntries es).length ≤ MAX_SEQUENCE_LENGTH) :
    mapEnd ⟨es, none⟩ = .ok (output_u32_as_uleb128 (canonEntries es).length ++
      ((canonEntries es).map fun e => e.1 ++ e.2).flatten) := by
  rw [mapEnd, mapEndF]
  simp only [Option.isSome_none, Bool.false_eq_true, if_false]
  rw [if_neg (by omega)]
  rw [foldl_extend_append]
  have hlt : (canonEntries es).length % 2 ^ 32 = (canonEntries es).length := by
    apply Nat.mod_eq_of_lt
    have : MAX_SEQUENCE_LENGTH < 2 ^ 32 := by decide
    omega
  rw [hlt]
  simp [bufFlavor]

theorem serializeValue_vmap (pairs : List (Value × Value)) (d : Nat) :
    serializeValue (.vmap pairs) d =
      (serializeEntries pairs d ⟨[], none⟩).bind mapEnd := by
  rw [serializeValue]
  rcases h : serializeEntries pairs d ⟨[], none⟩ with e | st <;>
    simp [Except.bind]

/-- Claim C1: at end-of-map the bytes appended to the enclosing sink are the
ULEB128 encoding of the deduplicated entry count followed by the
concatenation of `encoded_key ++ encoded_value` for each entry, entries
sorted ascending by encoded key (unsigned byte lexicographic) with
byte-identical encoded keys collapsed to one; and for every map whose staged
encoded keys are pairwise distinct, the serialized output is byte-identical
regardless of the order in which the adapter delivered the pairs. -/
theorem claim_C1 :
    (∀ es : List Entry, (canonEntries es).length ≤ MAX_SEQUENCE_LENGTH →
      mapEnd ⟨es, none⟩ =
        .ok (output_u32_as_uleb128 (canonEntries es).length ++
          ((canonEntries es).map fun e => e.1 ++ e.2).flatten) ∧
      List.Sorted keyLe (canonEntries es) ∧
      (canonEntries es).Pairwise fun a b => a.1 ≠ b.1) ∧
    (∀ (pairs1 pairs2 : List (Value × Value)) (d : Nat) (st : MapState),
      pairs1.Perm pairs2 →
      serializeEntries pairs1 d ⟨[], none⟩ = .ok st →
      st.entries.Pairwise (fun a b => a.1 ≠ b.1) →
      serializeValue (.vmap pairs1) d = serializeValue (.vmap pairs2) d) := by
  constructor
  · intro es h
    exact ⟨mapEnd_ok es h, (canonEntries_spec es).1, (canonEntries_spec es).2.1⟩
  · intro pairs1 pairs2 d st hperm hok hne
    obtain ⟨st2, hok2, hpents⟩ := serializeEntries_perm hperm d st hok
    have hnk1 : st.next_key = none := serializeEntries_next_key _ d [] st hok
    have hnk2 : st2.next_key = none := serializeEntries_next_key _ d [] st2 hok2
    have hcanon : canonEntries st.entries = canonEntries st2.entries :=
      canonEntries_eq_of_perm hpents hne
    rw [serializeValue_vmap, serializeValue_vmap, hok, hok2]
    simp [mapEnd, mapEndF, hnk1, hnk2, hcanon]

set_option maxRecDepth 10000 in
/-- Witness for C1: the spec scenario map with `u8` keys 2 and 1 and
byte-string values, delivered in both orders. -/
theorem claim_C1_witness :
    serializeValue (.vmap [(.vu8 2, .vbytes [120]), (.vu8 1, .vbytes [121])])
        MAX_CONTAINER_DEPTH =
      serializeValue (.vmap [(.vu8 1, .vbytes [121]), (.vu8 2, .vbytes [120])])
        MAX_CONTAINER_DEPTH :=
  claim_C1.2 _ _ MAX_CONTAINER_DEPTH ⟨[([2], [1, 120]), ([1], [1, 121])], none⟩
    (List.Perm.swap _ _ _)
    (by simp [serializeEntries, mapSerializeKey, mapSerializeValue,
      serializeValue, output_seq_len, output_u32_as_uleb128,
      MAX_SEQUENCE_LENGTH, Except.bind])
    (by decide)

/-- Claim C10: when several delivered pairs have byte-identical encoded
keys, the single canonical entry kept for that encoded key is the staged
entry that was delivered earliest (the sort is stable and deduplication
keeps the first of adjacent equal-key entries), and the canonical list has
pairwise-distinct keys, so the later pairs' values are discarded — as in
the concrete duplicate-key map at the end. -/
theorem claim_C10 :
    (∀ (es : List Entry) (k : List Nat),
      (canonEntries es).find? (fun e => e.1 == k) =
        es.find? (fun e => e.1 == k) ∧
      (canonEntries es).Pairwise fun a b => a.1 ≠ b.1) ∧
    serializeValue (.vmap [(.vu8 7, .vu8 1), (.vu8 7, .vu8 2)])
      MAX_CONTAINER_DEPTH = .ok [1, 7, 1] := by
  constructor
  · intro es k
    obtain ⟨_, h2, h3⟩ := canonEntries_spec es
    exact ⟨h3 k, h2⟩
  · rw [serializeValue_vmap]
    have h1 : serializeEntries [(.vu8 7, .vu8 1), (.vu8 7, .vu8 2)]
        MAX_CONTAINER_DEPTH ⟨[], none⟩ =
        .ok ⟨[([7], [1]), ([7], [2])], none⟩ := by
      simp [serializeEntries, mapSerializeKey, mapSerializeValue,
        serializeValue, Except.bind]
    rw [h1]
    have hc : canonEntries [([7], [1]), ([7], [2])] = [([7], [1])] := by
      simp [canonEntries, List.insertionSort, List.orderedInsert, keyLe,
        bytesLe, dedupByKey]
    simp only [except_bind_ok']
    rw [mapEnd_ok _ (by rw [hc]; decide), hc]
    simp [output_u32_as_uleb128]

/-- Claim C3: for every `v` in the `u32` range the ULEB128 encoder emits 7
bits per byte, least-significant group first (`ulebDecode` reassembles `v`),
with the high bit set on every byte except the last and clear on the last,
and the encoding is minimal (the last byte is zero only for `v = 0`);
the boundary values 0, 127, 128, 16383, 16384 encode as stated. -/
theorem claim_C3 :
    (∀ v : Nat, v < 2 ^ 32 →
      output_u32_as_uleb128 v ≠ [] ∧
      ulebDecode (output_u32_as_uleb128 v) = v ∧
      (∀ b ∈ (output_u32_as_uleb128 v).dropLast, 128 ≤ b ∧ b < 256) ∧
      (∀ b, (output_u32_as_uleb128 v).getLast? = some b →
        b < 128 ∧ (b = 0 → v = 0))) ∧
    output_u32_as_uleb128 0 = [0x00] ∧
    output_u32_as_uleb128 127 = [0x7f] ∧
    output_u32_as_uleb128 128 = [0x80, 0x01] ∧
    output_u32_as_uleb128 16383 = [0xff, 0x7f] ∧
    output_u32_as_uleb128 16384 = [0x80, 0x80, 0x01] := by
  refine ⟨fun v _ => ?_, ?_, ?_, ?_, ?_, ?_⟩
  · obtain ⟨h1, h2, h3, h4⟩ := uleb_spec v
    exact ⟨h1, h2, h4, h3⟩
  all_goals simp [output_u32_as_uleb128]

/-- Witness for C3 at `v = 16384`. -/
theorem claim_C3_witness :
    (16384 : Nat) < 2 ^ 32 ∧
    ulebDecode (output_u32_as_uleb128 16384) = 16384 :=
  ⟨by decide, (claim_C3.1 16384 (by decide)).2.1⟩

/-- Claim C7: delivering a second key while one is pending fails with
`ExpectedMapValue`; delivering a value with no pending key fails with
`ExpectedMapKey`; finalizing the map with a pending key fails with
`ExpectedMapValue`. -/
theorem claim_C7 :
    (∀ (st : MapState) (enc : Except Error (List Nat)),
      st.next_key.isSome = true →
      mapSerializeKey st enc = .error .ExpectedMapValue) ∧
    (∀ (st : MapState) (enc : Except Error (List Nat)),
      st.next_key = none →
      mapSerializeValue st enc = .error .ExpectedMapKey) ∧
    (∀ st : MapState, st.next_key.isSome = true →
      mapEnd st = .error .ExpectedMapValue) := by
  refine ⟨?_, ?_, ?_⟩
  · intro st enc h
    rw [mapSerializeKey, if_pos h]
  · intro st enc h
    rw [mapSerializeValue, h]
  · intro st h
    rw [mapEnd, mapEndF, if_pos h]

/-- Witness for C7 at concrete map-serializer states. -/
theorem claim_C7_witness :
    mapSerializeKey ⟨[], some [1]⟩ (.ok [2]) = .error .ExpectedMapValue ∧
    mapSerializeValue ⟨[], none⟩ (.ok [2]) = .error .ExpectedMapKey ∧
    mapEnd ⟨[], some [1]⟩ = .error .ExpectedMapValue :=
  ⟨claim_C7.1 ⟨[], some [1]⟩ (.ok [2]) rfl,
   claim_C7.2.1 ⟨[], none⟩ (.ok [2]) rfl,
   claim_C7.2.2 ⟨[], some [1]⟩ rfl⟩

/-- Claim C8: a variable-length sequence with no declared length fails with
`MissingLen`; with a declared length within bounds the serializer emits
`ULEB128(len)` and then the elements' encodings concatenated in iteration
order. -/
theorem claim_C8 :
    (∀ (elems : List Value) (d : Nat),
      serializeValue (.vseq none elems) d = .error .MissingLen) ∧
    (∀ (len : Nat) (elems : List Value) (d : Nat),
      len ≤ MAX_SEQUENCE_LENGTH →
      serializeValue (.vseq (some len) elems) d =
        (serializeElems elems d).map
          fun b => output_u32_as_uleb128 len ++ b) ∧
    (∀ (v : Value) (vs : List Value) (d : Nat),
      serializeElems (v :: vs) d =
        (serializeValue v d).bind fun b =>
          (serializeElems vs d).map fun r => b ++ r) := by
  refine ⟨?_, ?_, ?_⟩
  · intro elems d
    rw [serializeValue]
  · intro len elems d h
    rw [serializeValue, output_seq_len, if_neg (by omega)]
    have hm : len % 2 ^ 32 = len := by
      apply Nat.mod_eq_of_lt
      have : MAX_SEQUENCE_LENGTH < 2 ^ 32 := by decide
      omega
    rw [hm]
    rcases he : serializeElems elems d with e | b <;> simp [Except.bind, he]
  · intro v vs d
    rw [serializeElems]
    rcases hv : serializeValue v d with e | b
    · simp [Except.bind]
    · rcases hr : serializeElems vs d with e | r <;> simp [Except.bind, hv, hr]

/-- Witness for C8 at a concrete in-bounds sequence. -/
theorem claim_C8_witness :
    serializeValue (.vseq (some 3) [.vu8 1]) 0 =
      (serializeElems [.vu8 1] 0).map
        fun b => output_u32_as_uleb128 3 ++ b :=
  claim_C8.2.1 3 [.vu8 1] 0 (by decide)

/-- Counterexample to claim C5 as stated: a unit variant whose `u32` variant
index `2^31` exceeds `MAX_SEQUENCE_LENGTH` does not fail with
`ExceededMaxLen`; its index is emitted in ULEB128 form. -/
theorem claim_C5_counterexample :
    2 ^ 31 > MAX_SEQUENCE_LENGTH ∧
    to_bytes (.vunitVariant ("E") (2 ^ 31)) =
      .ok [0x80, 0x80, 0x80, 0x80, 0x08] := by
  constructor
  · decide
  · rw [to_bytes, serialize_with_flavor, serializeValueF,
      enter_named_container, if_neg (by decide)]
    simp only [except_bind_ok']
    simp [output_variant_index, output_u32_as_uleb128, bufFlavor]

/-- Claim C5 as amended: sequence lengths above `MAX_SEQUENCE_LENGTH` fail
with `ExceededMaxLen`, both in `output_seq_len` and when declared for a
sequence; variant indices are never length-checked — a tagged variant emits
the ULEB128 form of its `u32` index whenever the depth check passes. -/
theorem claim_C5_amended :
    (∀ len : Nat, len > MAX_SEQUENCE_LENGTH →
      output_seq_len len = .error (.ExceededMaxLen len)) ∧
    (∀ (len : Nat) (elems : List Value) (d : Nat),
      len > MAX_SEQUENCE_LENGTH →
      serializeValue (.vseq (some len) elems) d =
        .error (.ExceededMaxLen len)) ∧
    (∀ (name : String) (idx : Nat) (d : Nat),
      serializeValue (.vunitVariant name idx) (d + 1) =
        .ok (output_variant_index idx)) := by
  refine ⟨?_, ?_, ?_⟩
  · intro len h
    rw [output_seq_len, if_pos h]
  · intro len elems d h
    rw [serializeValue, output_seq_len, if_pos h]
    rfl
  · intro name idx d
    rw [serializeValue, enter_named_container, if_neg (by omega)]
    rfl

/-- Witness for the amended C5 at the concrete length and index `2^31`. -/
theorem claim_C5_witness :
    output_seq_len (2 ^ 31) = .error (.ExceededMaxLen (2 ^ 31)) ∧
    serializeValue (.vseq (some (2 ^ 31)) []) 0 =
      .error (.ExceededMaxLen (2 ^ 31)) ∧
    serializeValue (.vunitVariant ("E") (2 ^ 31)) 1 =
      .ok (output_variant_index (2 ^ 31)) :=
  ⟨claim_C5_amended.1 _ (by decide),
   claim_C5_amended.2.1 _ [] 0 (by decide),
   claim_C5_amended.2.2 ("E") (2 ^ 31) 0⟩

theorem foldl_extend_equiv {σ : Type} (fl : Flavor σ)
    (hext : ∀ (s : σ) (a b : List Nat),
      fl.extend (fl.extend s a) b = fl.extend s (a ++ b))
    (hnil : ∀ s : σ, fl.extend s [] = s) :
    ∀ (l : List Entry) (s : σ),
      l.foldl (fun acc e => fl.extend (fl.extend acc e.1) e.2) s =
        fl.extend s ((l.map fun e => e.1 ++ e.2).flatten)
  | [], s => by simp [hnil]
  | e :: l, s => by
    rw [List.foldl_cons, foldl_extend_equiv fl hext hnil l, hext, hext]
    simp

theorem mapEndF_equiv {σ : Type} (fl : Flavor σ)
    (hext : ∀ (s : σ) (a b : List Nat),
      fl.extend (fl.extend s a) b = fl.extend s (a ++ b))
    (hnil : ∀ s : σ, fl.extend s [] = s)
    (st : MapState) (s : σ) :
    mapEndF fl st s = (mapEnd st).map (fl.extend s) := by
  rw [mapEnd, mapEndF, mapEndF]
  by_cases h1 : st.next_key.isSome
  · rw [if_pos h1, if_pos h1]
    rfl
  · rw [if_neg h1, if_neg h1]
    by_cases h2 : (canonEntries st.entries).length > MAX_SEQUENCE_LENGTH
    · rw [if_pos h2, if_pos h2]
      rfl
    · rw [if_neg h2, if_neg h2]
      rw [foldl_extend_equiv fl hext hnil, foldl_extend_append]
      simp [bufFlavor, hext]

mutual

theorem serializeValueF_equiv {σ : Type} (fl : Flavor σ)
    (hext : ∀ (s : σ) (a b : List Nat),
      fl.extend (fl.extend s a) b = fl.extend s (a ++ b))
    (hnil : ∀ s : σ, fl.extend s [] = s) :
    ∀ (v : Value) (d : Nat) (s : σ),
      serializeValueF fl v d s = (serializeValue v d).map (fl.extend s)
  | .vbool b, d, s => by rw [serializeValueF, serializeValue]; rfl
  | .vu8 v, d, s => by rw [serializeValueF, serializeValue]; rfl
  | .vu16 v, d, s => by rw [serializeValueF, serializeValue]; rfl
  | .vu32 v, d, s => by rw [serializeValueF, serializeValue]; rfl
  | .vu64 v, d, s => by rw [serializeValueF, serializeValue]; rfl
  | .vu128 v, d, s => by rw [serializeValueF, serializeValue]; rfl
  | .vbytes bs, d, s => by
    rw [serializeValueF, serializeValue]
    rcases h : output_seq_len bs.length with e | pre <;> simp [h, hext]
  | .vnone, d, s => by rw [serializeValueF, serializeValue]; rfl
  | .vsome v, d, s => by
    rw [serializeValueF, serializeValue,
      serializeValueF_equiv fl hext hnil v d (fl.extend s [1])]
    rcases h : serializeValue v d with e | b <;> simp [h, hext]
  | .vunit, d, s => by
    rw [serializeValueF, serializeValue]
    simp [hnil]
  | .vunitStruct name, d, s => by
    rw [serializeValueF, serializeValue]
    rcases h : enter_named_container name d with e | d' <;> simp [h, hnil]
  | .vunitVariant name idx, d, s => by
    rw [serializeValueF, serializeValue]
    rcases h : enter_named_container name d with e | d' <;> simp [h]
  | .vnewtypeStruct name v, d, s => by
    rw [serializeValueF, serializeValue]
    rcases h : enter_named_container name d with e | d'
    · simp [h]
    · simp only [h, except_bind_ok]
      exact serializeValueF_equiv fl hext hnil v d' s
  | .vnewtypeVariant name idx v, d, s => by
    rw [serializeValueF, serializeValue]
    rcases h : enter_named_container name d with e | d'
    · simp [h]
    · simp only [h, except_bind_ok]
      rw [serializeValueF_equiv fl hext hnil v d'
        (fl.extend s (output_variant_index idx))]
      rcases hb : serializeValue v d' with e | b <;> simp [hb, hext]
  | .vseq none elems, d, s => by rw [serializeValueF, serializeValue]; rfl
  | .vseq (some len) elems, d, s => by
    rw [serializeValueF, serializeValue]
    rcases h : output_seq_len len with e | pre
    · simp [h]
    · simp only [h, except_bind_ok]
      rw [serializeElemsF_equiv fl hext hnil elems d (fl.extend s pre)]
      rcases hb : serializeElems elems d with e | b <;> simp [hb, hext]
  | .vtuple elems, d, s => by
    rw [serializeValueF, serializeValue]
    exact serializeElemsF_equiv fl hext hnil elems d s
  | .vtupleStruct name elems, d, s => by
    rw [serializeValueF, serializeValue]
    rcases h : enter_named_container name d with e | d'
    · simp [h]
    · simp only [h, except_bind_ok]
      exact serializeElemsF_equiv fl hext hnil elems d' s
  | .vtupleVariant name idx elems, d, s => by
    rw [serializeValueF, serializeValue]
    rcases h : enter_named_container name d with e | d'
    · simp [h]
    · simp only [h, except_bind_ok]
      rw [serializeElemsF_equiv fl hext hnil elems d'
        (fl.extend s (output_variant_index idx))]
      rcases hb : serializeElems elems d' with e | b <;> simp [hb, hext]
  | .vmap pairs, d, s => by
    rw [serializeValueF, serializeValue]
    rcases h : serializeEntries pairs d ⟨[], none⟩ with e | st <;> simp [h]
    exact mapEndF_equiv fl hext hnil st s
  | .vstruct name fields, d, s => by
    rw [serializeValueF, serializeValue]
    rcases h : enter_named_container name d with e | d'
    · simp [h]
    · simp only [h, except_bind_ok]
      exact serializeElemsF_equiv fl hext hnil fields d' s
  | .vstructVariant name idx fields, d, s => by
    rw [serializeValueF, serializeValue]
    rcases h : enter_named_container name d with e | d'
    · simp [h]
    · simp only [h, except_bind_ok]
      rw [serializeElemsF_equiv fl hext hnil fields d'
        (fl.extend s (output_variant_index idx))]
      rcases hb : serializeElems fields d' with e | b <;> simp [hb, hext]

theorem serializeElemsF_equiv {σ : Type} (fl : Flavor σ)
    (hext : ∀ (s : σ) (a b : List Nat),
      fl.extend (fl.extend s a) b = fl.extend s (a ++ b))
    (hnil : ∀ s : σ, fl.extend s [] = s) :
    ∀ (vs : List Value) (d : Nat) (s : σ),
      serializeElemsF fl vs d s = (serializeElems vs d).map (fl.extend s)
  | [], d, s => by
    rw [serializeElemsF, serializeElems]
    simp [hnil]
  | v :: vs, d, s => by
    rw [serializeElemsF, serializeElems,
      serializeValueF_equiv fl hext hnil v d s]
    rcases hb : serializeValue v d with e | b
    · simp [hb]
    · simp only [hb, except_map_ok, except_bind_ok]
      rw [serializeElemsF_equiv fl hext hnil vs d (fl.extend s b)]
      rcases hr : serializeElems vs d with e | r <;> simp [hr, hext]

end

theorem bufFlavor_hext (s a b : List Nat) :
    bufFlavor.extend (bufFlavor.extend s a) b = bufFlavor.extend s (a ++ b) := by
  simp [bufFlavor]

theorem bufFlavor_hnil (s : List Nat) : bufFlavor.extend s [] = s := by
  simp [bufFlavor]

theorem sizeFlavor_hext (s : Nat) (a b : List Nat) :
    sizeFlavor.extend (sizeFlavor.extend s a) b = sizeFlavor.extend s (a ++ b) := by
  simp [sizeFlavor]
  omega

theorem sizeFlavor_hnil (s : Nat) : sizeFlavor.extend s [] = s := by
  simp [sizeFlavor]

/-- `to_bytes` agrees with the plain byte serializer started on an empty
buffer. -/
theorem to_bytes_eq (v : Value) :
    to_bytes v = serializeValue v MAX_CONTAINER_DEPTH := by
  rw [to_bytes, serialize_with_flavor,
    serializeValueF_equiv bufFlavor bufFlavor_hext bufFlavor_hnil]
  rcases h : serializeValue v MAX_CONTAINER_DEPTH with e | b <;> simp [bufFlavor]

/-- Claim C4: the count returned by `serialized_size` (Counter sink) equals
the length of the byte vector returned by `to_bytes` (Buffer sink), and the
two fail with the same error on the same inputs (the two sides are equal as
`Except` values). -/
theorem claim_C4 (v : Value) :
    serialized_size v = (to_bytes v).map List.length := by
  rw [serialized_size, to_bytes, serialize_with_flavor, serialize_with_flavor,
    serializeValueF_equiv bufFlavor bufFlavor_hext bufFlavor_hnil,
    serializeValueF_equiv sizeFlavor sizeFlavor_hext sizeFlavor_hnil]
  rcases h : serializeValue v MAX_CONTAINER_DEPTH with e | b <;>
    simp [bufFlavor, sizeFlavor]

/-- Serializing the canonical `n`-deep named-struct chain at remaining
depth `d` succeeds (with empty output) exactly when `n ≤ d`, and otherwise
fails with `ExceededContainerDepthLimit`. -/
theorem serializeValue_nested :
    ∀ n d : Nat, serializeValue (nestedStruct n) d =
      if n ≤ d then .ok [] else .error (.ExceededContainerDepthLimit ("S"))
  | 0, d => by
    rw [nestedStruct, serializeValue, if_pos (Nat.zero_le d)]
  | n + 1, d => by
    rw [nestedStruct, serializeValue]
    cases d with
    | zero =>
      rw [enter_named_container, if_pos rfl]
      simp
    | succ d' =>
      rw [enter_named_container, if_neg (Nat.succ_ne_zero d')]
      simp only [except_bind_ok, Nat.succ_sub_one]
      rw [serializeElems, serializeValue_nested n d']
      by_cases h : n ≤ d'
      · rw [if_pos h, if_pos (by omega)]
        simp [serializeElems]
      · rw [if_neg h, if_neg (by omega)]
        simp

/-- Claim C2: every named-container entry (unit struct, unit variant,
newtype struct, newtype variant, tuple struct, tuple variant, struct,
struct variant) fails with `ExceededContainerDepthLimit(name)` at remaining
depth 0 and otherwise runs its body at the decremented depth; anonymous
containers (option, tuple, sequence, map) serialize their children at the
unchanged depth; under the default limit 500, named-struct nesting to depth
500 succeeds and to depth 501 fails with `ExceededContainerDepthLimit`. -/
theorem claim_C2 :
    (∀ name : String, serializeValue (.vunitStruct name) 0 =
      .error (.ExceededContainerDepthLimit name)) ∧
    (∀ (name : String) (idx : Nat), serializeValue (.vunitVariant name idx) 0 =
      .error (.ExceededContainerDepthLimit name)) ∧
    (∀ (name : String) (v : Value), serializeValue (.vnewtypeStruct name v) 0 =
      .error (.ExceededContainerDepthLimit name)) ∧
    (∀ (name : String) (idx : Nat) (v : Value),
      serializeValue (.vnewtypeVariant name idx v) 0 =
        .error (.ExceededContainerDepthLimit name)) ∧
    (∀ (name : String) (elems : List Value),
      serializeValue (.vtupleStruct name elems) 0 =
        .error (.ExceededContainerDepthLimit name)) ∧
    (∀ (name : String) (idx : Nat) (elems : List Value),
      serializeValue (.vtupleVariant name idx elems) 0 =
        .error (.ExceededContainerDepthLimit name)) ∧
    (∀ (name : String) (fields : List Value),
      serializeValue (.vstruct name fields) 0 =
        .error (.ExceededContainerDepthLimit name)) ∧
    (∀ (name : String) (idx : Nat) (fields : List Value),
      serializeValue (.vstructVariant name idx fields) 0 =
        .error (.ExceededContainerDepthLimit name)) ∧
    (∀ (name : String) (d : Nat),
      serializeValue (.vunitStruct name) (d + 1) = .ok []) ∧
    (∀ (name : String) (idx d : Nat),
      serializeValue (.vunitVariant name idx) (d + 1) =
        .ok (output_variant_index idx)) ∧
    (∀ (name : String) (v : Value) (d : Nat),
      serializeValue (.vnewtypeStruct name v) (d + 1) = serializeValue v d) ∧
    (∀ (name : String) (idx : Nat) (v : Value) (d : Nat),
      serializeValue (.vnewtypeVariant name idx v) (d + 1) =
        (serializeValue v d).map fun b => output_variant_index idx ++ b) ∧
    (∀ (name : String) (elems : List Value) (d : Nat),
      serializeValue (.vtupleStruct name elems) (d + 1) =
        serializeElems elems d) ∧
    (∀ (name : String) (idx : Nat) (elems : List Value) (d : Nat),
      serializeValue (.vtupleVariant name idx elems) (d + 1) =
        (serializeElems elems d).map fun b => output_variant_index idx ++ b) ∧
    (∀ (name : String) (fields : List Value) (d : Nat),
      serializeValue (.vstruct name fields) (d + 1) = serializeElems fields d) ∧
    (∀ (name : String) (idx : Nat) (fields : List Value) (d : Nat),
      serializeValue (.vstructVariant name idx fields) (d + 1) =
        (serializeElems fields d).map fun b => output_variant_index idx ++ b) ∧
    (∀ (v : Value) (d : Nat),
      serializeValue (.vsome v) d = (serializeValue v d).map fun b => 1 :: b) ∧
    (∀ (elems : List Value) (d : Nat),
      serializeValue (.vtuple elems) d = serializeElems elems d) ∧
    (∀ (len : Nat) (elems : List Value) (d : Nat),
      serializeValue (.vseq (some len) elems) d =
        (output_seq_len len).bind fun pre =>
          (serializeElems elems d).map fun b => pre ++ b) ∧
    (∀ (pairs : List (Value × Value)) (d : Nat),
      serializeValue (.vmap pairs) d =
        (serializeEntries pairs d ⟨[], none⟩).bind mapEnd) ∧
    to_bytes (nestedStruct 500) = .ok [] ∧
    to_bytes (nestedStruct 501) =
      .error (.ExceededContainerDepthLimit ("S")) := by
  refine ⟨?_, ?_, ?_, ?_, ?_, ?_, ?_, ?_, ?_, ?_, ?_, ?_, ?_, ?_, ?_, ?_,
    ?_, ?_, ?_, ?_, ?_, ?_⟩
  · intro name
    rw [serializeValue, enter_named_container, if_pos rfl]
    simp
  · intro name idx
    rw [serializeValue, enter_named_container, if_pos rfl]
    simp
  · intro name v
    rw [serializeValue, enter_named_container, if_pos rfl]
    simp
  · intro name idx v
    rw [serializeValue, enter_named_container, if_pos rfl]
    simp
  · intro name elems
    rw [serializeValue, enter_named_container, if_pos rfl]
    simp
  · intro name idx elems
    rw [serializeValue, enter_named_container, if_pos rfl]
    simp
  · intro name fields
    rw [serializeValue, enter_named_container, if_pos rfl]
    simp
  · intro name idx fields
    rw [serializeValue, enter_named_container, if_pos rfl]
    simp
  · intro name d
    rw [serializeValue, enter_named_container, if_neg (Nat.succ_ne_zero d)]
    simp
  · intro name idx d
    rw [serializeValue, enter_named_container, if_neg (Nat.succ_ne_zero d)]
    simp
  · intro name v d
    rw [serializeValue, enter_named_container, if_neg (Nat.succ_ne_zero d)]
    simp
  · intro name idx v d
    rw [serializeValue, enter_named_container, if_neg (Nat.succ_ne_zero d)]
    simp only [except_bind_ok, Nat.succ_sub_one]
    rcases hb : serializeValue v d with e | b <;> simp [hb]
  · intro name elems d
    rw [serializeValue, enter_named_container, if_neg (Nat.succ_ne_zero d)]
    simp
  · intro name idx elems d
    rw [serializeValue, enter_named_container, if_neg (Nat.succ_ne_zero d)]
    simp only [except_bind_ok, Nat.succ_sub_one]
    rcases hb : serializeElems elems d with e | b <;> simp [hb]
  · intro name fields d
    rw [serializeValue, enter_named_container, if_neg (Nat.succ_ne_zero d)]
    simp
  · intro name idx fields d
    rw [serializeValue, enter_named_container, if_neg (Nat.succ_ne_zero d)]
    simp only [except_bind_ok, Nat.succ_sub_one]
    rcases hb : serializeElems fields d with e | b <;> simp [hb]
  · intro v d
    rw [serializeValue]
    rcases hb : serializeValue v d with e | b <;> simp [hb]
  · intro elems d
    rw [serializeValue]
  · intro len elems d
    rw [serializeValue]
    rcases hp : output_seq_len len with e | pre
    · simp [hp]
    · simp only [hp, except_bind_ok, except_bind_ok']
      rcases hb : serializeElems elems d with e | b <;> simp [hb]
  · exact serializeValue_vmap
  · rw [to_bytes_eq, serializeValue_nested,
      if_pos (show 500 ≤ MAX_CONTAINER_DEPTH by decide)]
  · rw [to_bytes_eq, serializeValue_nested,
      if_neg (show ¬ 501 ≤ MAX_CONTAINER_DEPTH by decide)]

set_option maxRecDepth 10000 in
/-- Claim C6: the `Service` struct of the spec (4-byte fixed `ip` array,
variable-length `u16` sequence `port`, `Option<u32>` `connection_max` set
to 5000, `enabled` false) encodes to exactly the 17 stated bytes. -/
theorem claim_C6 :
    to_bytes (.vstruct ("Service") [
      .vtuple [.vu8 192, .vu8 168, .vu8 1, .vu8 1],
      .vseq (some 3) [.vu16 8001, .vu16 8002, .vu16 8003],
      .vsome (.vu32 5000),
      .vbool false]) =
      .ok [0xc0, 0xa8, 0x01, 0x01, 0x03, 0x41, 0x1f, 0x42, 0x1f, 0x43, 0x1f,
        0x01, 0x88, 0x13, 0x00, 0x00, 0x00] := by
  rw [to_bytes_eq]
  simp [serializeValue, serializeElems, output_seq_len, output_u32_as_uleb128,
    leBytes, enter_named_container, MAX_CONTAINER_DEPTH, MAX_SEQUENCE_LENGTH,
    Except.bind]

/-- Claim C9: the remaining depth is passed by value into every child
sub-encoder — each sibling of a compound shape is serialized at the
enclosing serializer's depth `d` (first two equations), so a named
container entered inside one sibling does not reduce the budget of the
next: two siblings each consuming the whole budget `d` both succeed; map
key/value sub-encoders start from the enclosing map serializer's depth, so
keys and values may use exactly the parent's budget but cannot exceed
it. -/
theorem claim_C9 :
    (∀ (v : Value) (vs : List Value) (d : Nat),
      serializeElems (v :: vs) d =
        (serializeValue v d).bind fun b =>
          (serializeElems vs d).bind fun r => .ok (b ++ r)) ∧
    (∀ (k v : Value) (rest : List (Value × Value)) (d : Nat)
        (es : List Entry),
      serializeEntries ((k, v) :: rest) d ⟨es, none⟩ =
        (encPair d (k, v)).bind fun e =>
          serializeEntries rest d ⟨es ++ [e], none⟩) ∧
    (∀ d : Nat, serializeElems [nestedStruct d, nestedStruct d] d = .ok []) ∧
    (∀ d : Nat,
      serializeValue (.vmap [(nestedStruct d, .vu8 7), (.vu8 1, nestedStruct d)])
        d = .ok [2, 7, 1]) ∧
    (∀ d : Nat,
      serializeValue (.vmap [(nestedStruct (d + 1), .vu8 7)]) d =
        .error (.ExceededContainerDepthLimit ("S"))) := by
  refine ⟨?_, ?_, ?_, ?_, ?_⟩
  · intro v vs d
    rw [serializeElems]
    rcases hv : serializeValue v d with e | b
    · simp
    · rcases hr : serializeElems vs d with e | r <;> simp [hr]
  · exact fun k v rest d es => serializeEntries_cons k v rest d es
  · intro d
    simp [serializeElems, serializeValue_nested]
  · intro d
    rw [serializeValue_vmap]
    have he1 : encPair d (nestedStruct d, .vu8 7) = .ok ([], [7]) := by
      simp [encPair, serializeValue_nested, serializeValue]
    have he2 : encPair d (.vu8 1, nestedStruct d) = .ok ([1], []) := by
      simp [encPair, serializeValue_nested, serializeValue]
    rw [serializeEntries_cons, he1]
    simp only [except_bind_ok', List.nil_append]
    rw [serializeEntries_cons, he2]
    simp only [except_bind_ok']
    rw [serializeEntries]
    simp only [except_bind_ok']
    have hc : canonEntries [([], [7]), ([1], [])] = [([], [7]), ([1], [])] := by
      simp [canonEntries, List.insertionSort, List.orderedInsert, keyLe,
        bytesLe, dedupByKey]
    simp only [List.singleton_append]
    rw [mapEnd_ok _ (by rw [hc]; decide), hc]
    simp [output_u32_as_uleb128]
  · intro d
    rw [serializeValue_vmap, serializeEntries_cons]
    have he : encPair d (nestedStruct (d + 1), .vu8 7) =
        .error (.ExceededContainerDepthLimit ("S")) := by
      rw [encPair]
      simp only [serializeValue_nested, if_neg (show ¬ d + 1 ≤ d by omega)]
      rfl
    rw [he]
    rfl

end BCS
